import Mathlib

/-!
Verification of the streaming tool-augmented chat client
(frontend/js/components/features/AIChat.js, function handleSend).

The embedding has three layers, mirroring the source:
* the transcript reducer: the setMessages updater applied once per
  decoded protocol event;
* the line framer: TextDecoder + buffer-split-on-newline over byte
  chunks;
* the send orchestrator: handleSend's guard, payload construction,
  fetch outcome handling and per-line pump.
-/

namespace AIChat

mutual

/-- JSON-like values as produced by JSON.parse, restricted to the
protocol subset exercised by the chat stream.  Numbers keep their
literal text (the client never computes with them).  The undef value
models reading a missing object field (JavaScript undefined). -/
inductive JVal where
  | str (s : String)
  | num (lit : String)
  | boolean (b : Bool)
  | null
  | undef
  | obj (fields : JFields)
  | arr (elems : JList)
deriving DecidableEq

/-- Field list of a JSON object, in source order. -/
inductive JFields where
  | nil
  | cons (key : String) (v : JVal) (rest : JFields)
deriving DecidableEq

/-- Element list of a JSON array, in source order. -/
inductive JList where
  | nil
  | cons (v : JVal) (rest : JList)
deriving DecidableEq

end

/-- Strict equality (the === operator) between two parsed values, as
the reducer uses it to compare tool names.  Objects and arrays coming
from two distinct JSON.parse calls are distinct references, so ===
yields false on them. -/
def jsEq : JVal → JVal → Bool
  | .str s, .str t => s == t
  | .num a, .num b => a == b
  | .boolean a, .boolean b => a == b
  | .null, .null => true
  | .undef, .undef => true
  | _, _ => false

mutual

/-- JavaScript string coercion of a parsed value, as performed by the
string concatenation msg.content + event.content.  Array coercion is
the comma join of the coerced elements. -/
def jvalToStr : JVal → String
  | .str s => s
  | .num lit => lit
  | .boolean true => "true"
  | .boolean false => "false"
  | .null => "null"
  | .undef => "undefined"
  | .obj _ => "[object Object]"
  | .arr es => jvalListToStr es

/-- Comma join used by JavaScript array-to-string coercion. -/
def jvalListToStr : JList → String
  | .nil => ""
  | .cons v .nil => jvalToStr v
  | .cons v rest => jvalToStr v ++ "," ++ jvalListToStr rest

end

/-- Status of one tool invocation, the two string constants used by
the component. -/
inductive ToolStatus where
  | running
  | completed
deriving DecidableEq

/-- One tool invocation record as pushed by the tool_start branch. -/
structure ToolCall where
  name : JVal
  args : JVal
  status : ToolStatus
  result : Option JVal
deriving DecidableEq

/-- One conversation turn.  User messages are created with no id and
no tools; the streaming assistant placeholder carries the transient
numeric id used for correlation. -/
structure Message where
  role : String
  content : String
  id : Option Nat
  tools : List ToolCall
deriving DecidableEq

/-- A decoded protocol event: the three recognized type tags, and
other for any successfully decoded value whose tag is unrecognized or
absent. -/
inductive Event where
  | content (text : JVal)
  | tool_start (name : JVal) (args : JVal)
  | tool_result (name : JVal) (result : JVal)
  | other
deriving DecidableEq

/-- Index of the first element satisfying p (Array.prototype.findIndex,
with the -1 miss modelled as none). -/
def findIndex (p : α → Bool) : List α → Option Nat
  | [] => none
  | a :: as => if p a then some 0 else (findIndex p as).map (fun i => i + 1)

/-- Index of the last element satisfying p
(Array.prototype.findLastIndex, with the -1 miss modelled as none). -/
def findLastIndex (p : α → Bool) : List α → Option Nat
  | [] => none
  | a :: as =>
    match findLastIndex p as with
    | some i => some (i + 1)
    | none => if p a then some 0 else none

/-- Replace the element at index i by its image under f; out-of-range
indices leave the list unchanged. -/
def modifyAt (f : α → α) : Nat → List α → List α
  | _, [] => []
  | 0, a :: as => f a :: as
  | n + 1, a :: as => a :: modifyAt f n as

/-- Predicate of the tool_result correlation scan:
t.name === event.name && t.status === 'running'. -/
def isRunningNamed (n : JVal) (t : ToolCall) : Bool :=
  jsEq t.name n && t.status == ToolStatus.running

/-- The update applied to the matched tool by the tool_result branch:
spread the old record, set status completed and the result. -/
def completeTool (r : JVal) (t : ToolCall) : ToolCall :=
  { t with status := .completed, result := some r }

/-- Event dispatch of the setMessages updater, acting on the located
active message. -/
def updateMsg : Event → Message → Message
  | .content c, m => { m with content := m.content ++ jvalToStr c }
  | .tool_start n a, m =>
      { m with tools :=
          m.tools ++ [{ name := n, args := a, status := .running, result := none }] }
  | .tool_result n r, m =>
      { m with tools :=
          match findLastIndex (isRunningNamed n) m.tools with
          | some i => modifyAt (completeTool r) i m.tools
          | none => m.tools }
  | .other, m => m

/-- Test used to locate the active assistant message:
m.id === assistantMsgId. -/
def hasId (aid : Nat) (m : Message) : Bool := m.id == some aid

/-- The transcript reducer: one application of the setMessages updater
for one decoded event.  If no message carries the transient id the
transcript is returned unchanged, otherwise the first such message is
updated in place. -/
def applyEvent (msgs : List Message) (aid : Nat) (ev : Event) : List Message :=
  match findIndex (hasId aid) msgs with
  | none => msgs
  | some k => modifyAt (updateMsg ev) k msgs

/-- Folding the reducer over a whole event sequence of one send. -/
def applyEvents (msgs : List Message) (aid : Nat) (evs : List Event) : List Message :=
  evs.foldl (fun ms ev => applyEvent ms aid ev) msgs

/-- Expected byte length of a UTF-8 sequence, read off its first
byte.  Stray continuation bytes (never produced by a valid encoder)
count as one unit. -/
def utf8SeqLen (b : Nat) : Nat :=
  if b < 128 then 1
  else if b < 192 then 1
  else if b < 224 then 2
  else if b < 240 then 3
  else 4

/-- UTF-8 encoding of one code point. -/
def utf8EncodeChar (c : Nat) : List Nat :=
  if c < 128 then [c]
  else if c < 2048 then [192 + c / 64, 128 + c % 64]
  else if c < 65536 then [224 + c / 4096, 128 + c / 64 % 64, 128 + c % 64]
  else [240 + c / 262144, 128 + c / 4096 % 64, 128 + c / 64 % 64, 128 + c % 64]

/-- UTF-8 encoding of a code-point sequence. -/
def utf8Encode (text : List Nat) : List Nat :=
  (text.map utf8EncodeChar).flatten

/-- Splitting of buffered bytes into the maximal decodable prefix and
the trailing incomplete sequence: the buffering done by an incremental
TextDecoder under the stream option.  The fuel argument only bounds
recursion depth; any fuel at least the input length is enough. -/
def utf8CompleteFuel : Nat → List Nat → List Nat × List Nat
  | _, [] => ([], [])
  | 0, bs => ([], bs)
  | fuel + 1, b :: rest =>
    if rest.length + 1 < utf8SeqLen b then ([], b :: rest)
    else
      let s := utf8CompleteFuel fuel (rest.drop (utf8SeqLen b - 1))
      (b :: (rest.take (utf8SeqLen b - 1) ++ s.1), s.2)

/-- Maximal decodable prefix and incomplete tail of a byte buffer. -/
def utf8Complete (bs : List Nat) : List Nat × List Nat :=
  utf8CompleteFuel bs.length bs

/-- One decoded scalar: the code point read at a lead byte together
with the bytes remaining after its sequence. -/
def utf8DecodeStep (b : Nat) (rest : List Nat) : Nat × List Nat :=
  if b < 128 then (b, rest)
  else if b < 224 then
    match rest with
    | b2 :: rest2 => ((b - 192) * 64 + (b2 - 128), rest2)
    | [] => (b, [])
  else if b < 240 then
    match rest with
    | b2 :: b3 :: rest3 =>
        ((b - 224) * 4096 + (b2 - 128) * 64 + (b3 - 128), rest3)
    | _ => (b, [])
  else
    match rest with
    | b2 :: b3 :: b4 :: rest4 =>
        ((b - 240) * 262144 + (b2 - 128) * 4096 + (b3 - 128) * 64 + (b4 - 128),
          rest4)
    | _ => (b, [])

/-- Decoding of complete UTF-8 sequences into code points, with a
recursion-depth fuel; any fuel at least the input length is enough. -/
def utf8DecodeFuel : Nat → List Nat → List Nat
  | _, [] => []
  | 0, _ => []
  | fuel + 1, b :: rest =>
    (utf8DecodeStep b rest).1 :: utf8DecodeFuel fuel (utf8DecodeStep b rest).2

/-- Decoding of a complete UTF-8 byte list into code points. -/
def utf8Decode (bs : List Nat) : List Nat :=
  utf8DecodeFuel bs.length bs

/-- Prepending of carried text onto the first field of a split. -/
def consInto (x : List α) : List (List α) → List (List α)
  | [] => [x]
  | f :: fs => (x ++ f) :: fs

/-- JavaScript String.prototype.split on a one-element separator: the
list of fields between separator occurrences.  The result is never
empty; the last field is the text after the final separator. -/
def splitSep [DecidableEq α] (sep : α) : List α → List (List α)
  | [] => [[]]
  | c :: rest =>
    if c = sep then [] :: splitSep sep rest
    else consInto [c] (splitSep sep rest)

/-- The lines.pop() step with its empty-string default: the last
field, or the default when there is none. -/
def popLast (l : List α) (dflt : α) : α :=
  match l.getLast? with
  | some x => x
  | none => dflt

/-- Reference framing of a whole text: its newline split minus the
trailing unterminated fragment. -/
def completeLines (text : List Nat) : List (List Nat) :=
  (splitSep 10 text).dropLast

/-- State of the incremental framer: the TextDecoder's undecoded byte
tail, the carried partial line, and the complete lines emitted so
far. -/
structure FramerState where
  pending : List Nat
  buffer : List Nat
  lines : List (List Nat)

/-- One loop iteration of the reader loop: decode the chunk
incrementally, append to the carry buffer, split on newline, pop the
last fragment back into the buffer and emit the complete lines. -/
def framerStep (st : FramerState) (chunk : List Nat) : FramerState :=
  let split := utf8Complete (st.pending ++ chunk)
  let fields := splitSep 10 (st.buffer ++ utf8Decode split.1)
  { pending := split.2
    buffer := popLast fields []
    lines := st.lines ++ fields.dropLast }

/-- Lines emitted by the framer over a whole chunked stream; the final
buffer is discarded at stream end, not emitted. -/
def framerRun (chunks : List (List Nat)) : List (List Nat) :=
  (chunks.foldl framerStep { pending := [], buffer := [], lines := [] }).lines

/-- Code points representable by the encoder model. -/
def ValidCP (c : Nat) : Prop := c < 1114112

instance (c : Nat) : Decidable (ValidCP c) :=
  inferInstanceAs (Decidable (c < 1114112))

/-- Whitespace recognized by the model for trim and JSON skipping
(the common space, tab, newline, carriage-return subset). -/
def isWsChar (c : Char) : Bool :=
  c = ' ' || c = '\t' || c = '\n' || c = '\r'

/-- String.prototype.trim over the character list of a line. -/
def trimChars (l : List Char) : List Char :=
  ((l.dropWhile isWsChar).reverse.dropWhile isWsChar).reverse

/-- Leading-whitespace skip of the JSON reader. -/
def skipWs (l : List Char) : List Char := l.dropWhile isWsChar

/-- Body of a JSON string literal after its opening quote: the decoded
characters and the input after the closing quote.  Escapes cover the
named escapes; the model omits the \u form, which the protocol lines
under study never use. -/
def parseStringBody : List Char → Option (List Char × List Char)
  | [] => none
  | c :: cs =>
    if c = '"' then some ([], cs)
    else if c = '\\' then
      match cs with
      | e :: cs2 =>
        match (if e = '"' then some '"' else if e = '\\' then some '\\'
               else if e = '/' then some '/' else if e = 'n' then some '\n'
               else if e = 't' then some '\t' else if e = 'r' then some '\r'
               else if e = 'b' then some (Char.ofNat 8)
               else if e = 'f' then some (Char.ofNat 12) else none) with
        | some d =>
          match parseStringBody cs2 with
          | some (s, r) => some (d :: s, r)
          | none => none
        | none => none
      | [] => none
    else
      match parseStringBody cs with
      | some (s, r) => some (c :: s, r)
      | none => none

/-- Maximal digit run at the head of the input. -/
def takeDigits (l : List Char) : List Char × List Char :=
  (l.takeWhile Char.isDigit, l.dropWhile Char.isDigit)

/-- Optional fraction part of a JSON number. -/
def parseFrac : List Char → Option (List Char × List Char)
  | [] => some ([], [])
  | c :: rest =>
    if c = '.' then
      match takeDigits rest with
      | (ds, r) => if ds.isEmpty then none else some (c :: ds, r)
    else some ([], c :: rest)

/-- Optional exponent part of a JSON number. -/
def parseExp : List Char → Option (List Char × List Char)
  | [] => some ([], [])
  | c :: rest =>
    if c = 'e' || c = 'E' then
      match rest with
      | s :: rest2 =>
        if s = '+' || s = '-' then
          match takeDigits rest2 with
          | (ds, r) => if ds.isEmpty then none else some (c :: s :: ds, r)
        else
          match takeDigits rest with
          | (ds, r) => if ds.isEmpty then none else some (c :: ds, r)
      | [] => none
    else some ([], c :: rest)

/-- JSON number literal: optional sign, digits, optional fraction and
exponent, kept as literal text. -/
def parseNum (l : List Char) : Option (List Char × List Char) :=
  let sl := match l with
    | c :: rest => if c = '-' then (([c] : List Char), rest) else ([], l)
    | [] => ([], [])
  match takeDigits sl.2 with
  | (ds, l2) =>
    if ds.isEmpty then none
    else
      match parseFrac l2 with
      | some (fs, l3) =>
        match parseExp l3 with
        | some (es, l4) => some (sl.1 ++ ds ++ fs ++ es, l4)
        | none => none
      | none => none

mutual

/-- Recursive-descent JSON value reader, the model of JSON.parse.  The
fuel bounds nesting depth; one unit is spent per nested value, so any
fuel beyond the input length is enough. -/
def parseVal : Nat → List Char → Option (JVal × List Char)
  | 0, _ => none
  | fuel + 1, l =>
    match skipWs l with
    | [] => none
    | c :: rest =>
      if c = '"' then
        match parseStringBody rest with
        | some (s, r) => some (.str (String.mk s), r)
        | none => none
      else if c = Char.ofNat 123 then
        match skipWs rest with
        | c2 :: rest2 =>
          if c2 = Char.ofNat 125 then some (.obj .nil, rest2)
          else
            match parseMembers fuel (c2 :: rest2) with
            | some (fs, r) => some (.obj fs, r)
            | none => none
        | [] => none
      else if c = '[' then
        match skipWs rest with
        | c2 :: rest2 =>
          if c2 = ']' then some (.arr .nil, rest2)
          else
            match parseElems fuel (c2 :: rest2) with
            | some (es, r) => some (.arr es, r)
            | none => none
        | [] => none
      else if c = 't' then
        match rest with
        | 'r' :: 'u' :: 'e' :: r => some (.boolean true, r)
        | _ => none
      else if c = 'f' then
        match rest with
        | 'a' :: 'l' :: 's' :: 'e' :: r => some (.boolean false, r)
        | _ => none
      else if c = 'n' then
        match rest with
        | 'u' :: 'l' :: 'l' :: r => some (.null, r)
        | _ => none
      else
        match parseNum (c :: rest) with
        | some (ds, r) => some (.num (String.mk ds), r)
        | none => none

/-- Nonempty member list of a JSON object, up to and including the
closing brace. -/
def parseMembers : Nat → List Char → Option (JFields × List Char)
  | 0, _ => none
  | fuel + 1, l =>
    match skipWs l with
    | '"' :: rest =>
      match parseStringBody rest with
      | some (k, r1) =>
        match skipWs r1 with
        | ':' :: r2 =>
          match parseVal fuel r2 with
          | some (v, r3) =>
            match skipWs r3 with
            | ',' :: r4 =>
              match parseMembers fuel r4 with
              | some (fs, r5) => some (.cons (String.mk k) v fs, r5)
              | none => none
            | c :: r4 =>
              if c = Char.ofNat 125 then some (.cons (String.mk k) v .nil, r4)
              else none
            | [] => none
          | none => none
        | _ => none
      | none => none
    | _ => none

/-- Nonempty element list of a JSON array, up to and including the
closing bracket. -/
def parseElems : Nat → List Char → Option (JList × List Char)
  | 0, _ => none
  | fuel + 1, l =>
    match parseVal fuel l with
    | some (v, r1) =>
      match skipWs r1 with
      | ',' :: r2 =>
        match parseElems fuel r2 with
        | some (es, r3) => some (.cons v es, r3)
        | none => none
      | ']' :: r2 => some (.cons v .nil, r2)
      | _ => none
    | none => none

end

/-- JSON.parse of a whole line: one value, possibly surrounded by
whitespace, with nothing after it. -/
def jsonParse (l : List Char) : Option JVal :=
  match parseVal (l.length + 1) l with
  | some (v, r) => if (skipWs r).isEmpty then some v else none
  | none => none

/-- Property read obj[key]: the last duplicate binding wins, as in
JSON.parse; a missing key reads as undefined. -/
def jget (k : String) : JFields → JVal
  | .nil => .undef
  | .cons k2 v rest =>
    match jget k rest with
    | .undef => if k2 = k then v else .undef
    | w => w

/-- Interpretation of a parsed value by the event dispatch chain
(event.type === 'content' / 'tool_start' / 'tool_result').  A
non-object value has no fields, so every read yields undefined and no
branch matches. -/
def toEvent (v : JVal) : Event :=
  match v with
  | .obj fields =>
    if jget "type" fields = .str "content" then .content (jget "content" fields)
    else if jget "type" fields = .str "tool_start" then
      .tool_start (jget "name" fields) (jget "args" fields)
    else if jget "type" fields = .str "tool_result" then
      .tool_result (jget "name" fields) (jget "result" fields)
    else .other
  | _ => .other

/-- Parsing of one framed line inside the per-line try block:
JSON.parse, then the event.type read on the result.  A JSON.parse
throw and the type read throwing on a parsed null both land in the
catch, so both are failures. -/
def parseLine (l : List Char) : Option Event :=
  match jsonParse l with
  | some .null => none
  | some v => some (toEvent v)
  | none => none

/-- Sanitized outbound message: exactly a role and a string content,
no tool metadata (the type has no other field). -/
structure WireMsg where
  role : String
  content : String
deriving DecidableEq

/-- Roles kept by the outbound filter. -/
def allowedRoles : List String := ["user", "assistant", "system"]

/-- The sanitizedMessages construction: filter to the allowed roles,
coerce each to role and content.  Contents are already strings in the
model, so the String(content) coercion is the identity. -/
def sanitize (msgs : List Message) : List WireMsg :=
  (msgs.filter (fun m => allowedRoles.contains m.role)).map
    (fun m => { role := m.role, content := m.content })

/-- JSON.stringify escaping of the string characters exercised here;
the model omits the \u form for rare control characters. -/
def escChar (c : Char) : List Char :=
  if c = '"' then ['\\', '"']
  else if c = '\\' then ['\\', '\\']
  else if c = '\n' then ['\\', 'n']
  else if c = '\t' then ['\\', 't']
  else if c = '\r' then ['\\', 'r']
  else [c]

/-- JSON.stringify of a string value. -/
def escapeJson (s : String) : String :=
  String.mk ((s.data.map escChar).flatten)

/-- JSON.stringify of one sanitized message. -/
def renderWireMsg (w : WireMsg) : String :=
  "\x7b\"role\":\"" ++ escapeJson w.role ++ "\",\"content\":\""
    ++ escapeJson w.content ++ "\"\x7d"

/-- JSON.stringify of the outbound request body. -/
def renderBody (ws : List WireMsg) : String :=
  "\x7b\"messages\":[" ++ String.intercalate "," (ws.map renderWireMsg) ++ "]\x7d"

/-- Outcome of the fetch call: either the promise rejects with an
error message (network or open failure), or a response arrives
carrying its ok flag and its body as decoded text chunks. -/
inductive FetchOutcome where
  | fail (message : String)
  | ok (okFlag : Bool) (chunks : List String)

/-- State threaded through the pump: the framer carry buffer, the
transcript, and the number of logged per-line parse failures. -/
structure PumpState where
  buffer : List Char
  msgs : List Message
  fails : Nat

/-- Handling of one complete framed line: blank lines are skipped, a
parsed event is applied by the reducer, a parse failure is logged and
pumping continues. -/
def processLine (aid : Nat) (st : PumpState) (line : List Char) : PumpState :=
  if (trimChars line).isEmpty then st
  else
    match parseLine line with
    | some ev => { st with msgs := applyEvent st.msgs aid ev }
    | none => { st with fails := st.fails + 1 }

/-- Handling of one decoded text chunk: append to the carry buffer,
split on newline, pop the last fragment back into the buffer, process
each complete line in order. -/
def pumpChunk (aid : Nat) (st : PumpState) (chunk : String) : PumpState :=
  let fields := splitSep '\n' (st.buffer ++ chunk.data)
  (fields.dropLast).foldl (processLine aid) { st with buffer := popLast fields [] }

/-- The whole reader loop: fold the chunks; at stream end the carry
buffer is discarded, not flushed. -/
def pumpBody (aid : Nat) (msgs : List Message) (chunks : List String) : PumpState :=
  chunks.foldl (pumpChunk aid) { buffer := [], msgs := msgs, fails := 0 }

/-- Component state of the orchestrator: the transcript and the
loading flag (true while a send is in flight). -/
structure ChatState where
  messages : List Message
  loading : Bool
deriving DecidableEq

/-- Observable outcome of one handleSend call: the final component
state, the stringified request body if a stream open was attempted,
and the number of logged parse failures. -/
structure SendOut where
  final : ChatState
  request : Option String
  fails : Nat
deriving DecidableEq

/-- Fresh user message created on submit. -/
def userMsg (text : String) : Message :=
  { role := "user", content := text, id := none, tools := [] }

/-- Empty assistant placeholder created at stream start, carrying the
transient id. -/
def placeholderMsg (aid : Nat) : Message :=
  { role := "assistant", content := "", id := some aid, tools := [] }

/-- Synthetic assistant message appended by the catch branch. -/
def errorMsg (emsg : String) : Message :=
  { role := "assistant", content := "Error: " ++ emsg, id := none, tools := [] }

/-- One run of handleSend: guard, user append, placeholder append,
payload construction, fetch, pump, and the finally that clears the
loading flag.  The response ok flag is read nowhere: the body is
pumped whatever the status. -/
def sendModel (st : ChatState) (input : String) (aid : Nat)
    (outcome : FetchOutcome) : SendOut :=
  if (trimChars input.data).isEmpty || st.loading then
    { final := st, request := none, fails := 0 }
  else
    let newMsgs := st.messages ++ [userMsg input]
    let withPh := newMsgs ++ [placeholderMsg aid]
    let payload := renderBody (sanitize newMsgs)
    match outcome with
    | .fail emsg =>
        { final := { messages := withPh ++ [errorMsg emsg], loading := false }
          request := some payload
          fails := 0 }
    | .ok _ chunks =>
        let p := pumpBody aid withPh chunks
        { final := { messages := p.msgs, loading := false }
          request := some payload
          fails := p.fails }

/-- Lookup of a tool record by message index and tool index. -/
def toolAt (msgs : List Message) (k i : Nat) : Option ToolCall :=
  (msgs[k]?).bind (fun m => m.tools[i]?)

theorem modifyAt_length (f : α → α) (i : Nat) (l : List α) :
    (modifyAt f i l).length = l.length := by
  induction l generalizing i with
  | nil => cases i <;> rfl
  | cons a as ih => cases i <;> simp [modifyAt, ih]

theorem modifyAt_getElem_ne (f : α → α) (i j : Nat) (l : List α) (h : j ≠ i) :
    (modifyAt f i l)[j]? = l[j]? := by
  induction l generalizing i j with
  | nil => cases i <;> rfl
  | cons a as ih =>
    cases i with
    | zero =>
      cases j with
      | zero => exact absurd rfl h
      | succ j => simp [modifyAt]
    | succ i =>
      cases j with
      | zero => simp [modifyAt]
      | succ j =>
        simp only [modifyAt, List.getElem?_cons_succ]
        exact ih i j (by omega)

theorem modifyAt_eq_set (f : α → α) (i : Nat) (l : List α) (a : α)
    (h : l[i]? = some a) : modifyAt f i l = l.set i (f a) := by
  induction l generalizing i with
  | nil => simp at h
  | cons x xs ih =>
    cases i with
    | zero =>
      simp only [List.getElem?_cons_zero, Option.some_inj] at h
      subst h; rfl
    | succ i =>
      simp only [List.getElem?_cons_succ] at h
      simp [modifyAt, List.set, ih i h]

theorem modifyAt_eq_self (f : α → α) (i : Nat) (l : List α) (a : α)
    (hget : l[i]? = some a) (hfix : f a = a) : modifyAt f i l = l := by
  induction l generalizing i with
  | nil => cases i <;> rfl
  | cons x xs ih =>
    cases i with
    | zero =>
      simp only [List.getElem?_cons_zero, Option.some_inj] at hget
      subst hget; simp [modifyAt, hfix]
    | succ i =>
      simp only [List.getElem?_cons_succ] at hget
      simp [modifyAt, ih i hget]

theorem findIndex_eq_some (p : α → Bool) (l : List α) (k : Nat) (a : α)
    (hget : l[k]? = some a) (hp : p a = true)
    (hmin : ∀ j, j < k → ∀ b, l[j]? = some b → p b = false) :
    findIndex p l = some k := by
  induction l generalizing k with
  | nil => simp at hget
  | cons x xs ih =>
    cases k with
    | zero =>
      simp only [List.getElem?_cons_zero, Option.some_inj] at hget
      subst hget; simp [findIndex, hp]
    | succ k =>
      have hx : p x = false := hmin 0 (Nat.succ_pos k) x (by simp)
      simp only [List.getElem?_cons_succ] at hget
      have hrec := ih k hget
        (fun j hj b hb => hmin (j + 1) (Nat.succ_lt_succ hj) b (by simpa using hb))
      simp [findIndex, hx, hrec]

theorem findIndex_some_mem (p : α → Bool) (l : List α) (k : Nat)
    (h : findIndex p l = some k) : ∃ a, l[k]? = some a ∧ p a = true := by
  induction l generalizing k with
  | nil => simp [findIndex] at h
  | cons x xs ih =>
    by_cases hx : p x = true
    · simp [findIndex, hx] at h
      subst h; exact ⟨x, by simp, hx⟩
    · simp [findIndex, hx] at h
      obtain ⟨j, hj, rfl⟩ := h
      obtain ⟨a, ha, hpa⟩ := ih j hj
      exact ⟨a, by simpa using ha, hpa⟩

theorem findLastIndex_eq_none (p : α → Bool) (l : List α)
    (h : ∀ b ∈ l, p b = false) : findLastIndex p l = none := by
  induction l with
  | nil => rfl
  | cons x xs ih =>
    have hrec := ih (fun b hb => h b (List.mem_cons_of_mem x hb))
    simp [findLastIndex, hrec, h x (List.mem_cons_self x xs)]

theorem findLastIndex_eq_some (p : α → Bool) (l : List α) (i : Nat) (a : α)
    (hget : l[i]? = some a) (hp : p a = true)
    (hmax : ∀ j, i < j → ∀ b, l[j]? = some b → p b = false) :
    findLastIndex p l = some i := by
  induction l generalizing i with
  | nil => simp at hget
  | cons x xs ih =>
    cases i with
    | zero =>
      simp only [List.getElem?_cons_zero, Option.some_inj] at hget
      subst hget
      have hnone : findLastIndex p xs = none := by
        apply findLastIndex_eq_none
        intro b hb
        obtain ⟨j, hj, hjb⟩ := List.getElem_of_mem hb
        exact hmax (j + 1) (Nat.succ_pos j) b (by simp [List.getElem?_cons_succ, hj, hjb])
      simp [findLastIndex, hnone, hp]
    | succ i =>
      simp only [List.getElem?_cons_succ] at hget
      have hrec := ih i hget
        (fun j hj b hb => hmax (j + 1) (Nat.succ_lt_succ hj) b (by simpa using hb))
      simp [findLastIndex, hrec]

theorem findLastIndex_some_mem (p : α → Bool) (l : List α) (i : Nat)
    (h : findLastIndex p l = some i) : ∃ a, l[i]? = some a ∧ p a = true := by
  induction l generalizing i with
  | nil => simp [findLastIndex] at h
  | cons x xs ih =>
    simp only [findLastIndex] at h
    cases hrec : findLastIndex p xs with
    | some j =>
      rw [hrec] at h
      simp at h
      subst h
      obtain ⟨a, ha, hpa⟩ := ih j hrec
      exact ⟨a, by simpa using ha, hpa⟩
    | none =>
      rw [hrec] at h
      by_cases hx : p x = true
      · simp [hx] at h
        subst h; exact ⟨x, by simp, hx⟩
      · simp [hx] at h

theorem modifyAt_of_id (f : α → α) (hf : ∀ a, f a = a) (i : Nat) (l : List α) :
    modifyAt f i l = l := by
  induction l generalizing i with
  | nil => cases i <;> rfl
  | cons x xs ih => cases i <;> simp [modifyAt, hf, ih]

theorem modifyAt_getElem_self (f : α → α) (i : Nat) (l : List α) (a : α)
    (h : l[i]? = some a) : (modifyAt f i l)[i]? = some (f a) := by
  induction l generalizing i with
  | nil => simp at h
  | cons x xs ih =>
    cases i with
    | zero =>
      simp only [List.getElem?_cons_zero, Option.some_inj] at h
      subst h; simp [modifyAt]
    | succ i =>
      simp only [List.getElem?_cons_succ] at h
      simp [modifyAt, ih i h]

theorem modifyAt_mem (f : α → α) (i : Nat) (l : List α) (b : α)
    (h : b ∈ modifyAt f i l) : b ∈ l ∨ ∃ a, l[i]? = some a ∧ b = f a := by
  induction l generalizing i with
  | nil => cases i <;> simp [modifyAt] at h
  | cons x xs ih =>
    cases i with
    | zero =>
      simp only [modifyAt, List.mem_cons] at h
      rcases h with h | h
      · exact Or.inr ⟨x, by simp, h⟩
      · exact Or.inl (List.mem_cons_of_mem x h)
    | succ i =>
      simp only [modifyAt, List.mem_cons] at h
      rcases h with h | h
      · exact Or.inl (by simp [h])
      · rcases ih i h with h2 | ⟨a, ha, hb⟩
        · exact Or.inl (List.mem_cons_of_mem x h2)
        · exact Or.inr ⟨a, by simpa using ha, hb⟩

theorem hasId_true_iff (aid : Nat) (m : Message) :
    hasId aid m = true ↔ m.id = some aid := by
  simp [hasId]

/-- C9: applying a successfully decoded event whose type tag is not
content, tool_start, or tool_result leaves the transcript value
unchanged and raises no error; the dispatch maps every such decoded
object to that ignored event. -/
theorem unknown_event_is_noop :
    (∀ (msgs : List Message) (aid : Nat), applyEvent msgs aid Event.other = msgs)
    ∧ ∀ (fields : JFields) (t : String), jget "type" fields = JVal.str t →
        t ≠ "content" → t ≠ "tool_start" → t ≠ "tool_result" →
        toEvent (JVal.obj fields) = Event.other := by
  constructor
  · intro msgs aid
    unfold applyEvent
    cases h : findIndex (hasId aid) msgs with
    | none => rfl
    | some k => exact modifyAt_of_id _ (fun m => rfl) k msgs
  · intro fields t ht h1 h2 h3
    simp [toEvent, ht, h1, h2, h3]

/-- Witness for C9: a decoded object tagged ping is dispatched to the
ignored event. -/
theorem unknown_event_is_noop_witness :
    toEvent (JVal.obj (.cons "type" (JVal.str "ping") .nil)) = Event.other :=
  unknown_event_is_noop.2 (.cons "type" (JVal.str "ping") .nil) "ping"
    (by decide) (by decide) (by decide) (by decide)

/-- C10: one reducer application never changes the number or order of
messages; every message at an index other than that of the active
assistant message (the first message carrying the transient id) is
unchanged, and when no message carries the id the whole transcript is
unchanged. -/
theorem reducer_frame (msgs : List Message) (aid : Nat) (ev : Event) :
    (applyEvent msgs aid ev).length = msgs.length
    ∧ (findIndex (hasId aid) msgs = none → applyEvent msgs aid ev = msgs)
    ∧ ∀ j : Nat, findIndex (hasId aid) msgs ≠ some j →
        (applyEvent msgs aid ev)[j]? = msgs[j]? := by
  unfold applyEvent
  cases h : findIndex (hasId aid) msgs with
  | none => exact ⟨rfl, fun _ => rfl, fun j _ => rfl⟩
  | some k =>
    refine ⟨modifyAt_length _ k msgs, fun hc => by simp at hc, fun j hj => ?_⟩
    exact modifyAt_getElem_ne _ k j msgs (fun hjk => hj (by rw [hjk]))

/-- Witness for C10: applying a content event to a two-message
transcript whose active message sits at index 1 leaves the message at
index 0 unchanged. -/
theorem reducer_frame_witness :
    (applyEvent [userMsg "x", placeholderMsg 5] 5
        (Event.content (JVal.str "y")))[0]? = some (userMsg "x") :=
  ((reducer_frame [userMsg "x", placeholderMsg 5] 5
      (Event.content (JVal.str "y"))).2.2 0 (by decide)).trans (by decide)

/-- C3: a tool_result event whose name has no running match in the
active assistant message is a no-op: the transcript value is
unchanged, no synthetic entry is created, no error is raised. -/
theorem dangling_result_is_noop (msgs : List Message) (aid : Nat) (n r : JVal)
    (h : ∀ m ∈ msgs, m.id = some aid → ∀ t ∈ m.tools, isRunningNamed n t = false) :
    applyEvent msgs aid (Event.tool_result n r) = msgs := by
  unfold applyEvent
  cases hf : findIndex (hasId aid) msgs with
  | none => rfl
  | some k =>
    obtain ⟨m, hm, hid⟩ := findIndex_some_mem (hasId aid) msgs k hf
    have hnone : findLastIndex (isRunningNamed n) m.tools = none :=
      findLastIndex_eq_none _ _
        (h m (List.getElem?_mem hm) ((hasId_true_iff aid m).mp hid))
    have hfix : updateMsg (Event.tool_result n r) m = m := by
      simp [updateMsg, hnone]
    exact modifyAt_eq_self _ k msgs m hm hfix

/-- Witness for C3: a tool_result for X against a transcript whose
only running tool is named Y leaves the transcript unchanged. -/
theorem dangling_result_is_noop_witness :
    applyEvent
      [{ role := "assistant", content := "", id := some 1,
         tools := [{ name := JVal.str "Y", args := JVal.null,
                     status := ToolStatus.running, result := none }] }]
      1 (Event.tool_result (JVal.str "X") (JVal.str "r")) =
      [{ role := "assistant", content := "", id := some 1,
         tools := [{ name := JVal.str "Y", args := JVal.null,
                     status := ToolStatus.running, result := none }] }] :=
  dangling_result_is_noop _ 1 (JVal.str "X") (JVal.str "r") (by decide)

/-- C1: when the active assistant message exists (index k, first
carrier of the id) and index i is the greatest index of a running tool
whose name strictly equals the event name, a tool_result updates
exactly that entry in place: status completed, result set, name, args
and position kept, everything else untouched. -/
theorem tool_result_updates_last_running (msgs : List Message) (aid : Nat)
    (k : Nat) (m : Message) (i : Nat) (t : ToolCall) (n r : JVal)
    (hk : msgs[k]? = some m) (hid : hasId aid m = true)
    (hkmin : ∀ j, j < k → ∀ m2, msgs[j]? = some m2 → hasId aid m2 = false)
    (hi : m.tools[i]? = some t) (ht : isRunningNamed n t = true)
    (himax : ∀ j, i < j → ∀ t2, m.tools[j]? = some t2 → isRunningNamed n t2 = false) :
    applyEvent msgs aid (Event.tool_result n r) =
      msgs.set k { m with tools := m.tools.set i (completeTool r t) } := by
  have hfk : findIndex (hasId aid) msgs = some k :=
    findIndex_eq_some (hasId aid) msgs k m hk hid hkmin
  have hfi : findLastIndex (isRunningNamed n) m.tools = some i :=
    findLastIndex_eq_some (isRunningNamed n) m.tools i t hi ht himax
  have hupd : updateMsg (Event.tool_result n r) m =
      { m with tools := m.tools.set i (completeTool r t) } := by
    simp [updateMsg, hfi, modifyAt_eq_set (completeTool r) i m.tools t hi]
  calc applyEvent msgs aid (Event.tool_result n r)
      = modifyAt (updateMsg (Event.tool_result n r)) k msgs := by
        simp [applyEvent, hfk]
    _ = msgs.set k (updateMsg (Event.tool_result n r) m) :=
        modifyAt_eq_set _ k msgs m hk
    _ = msgs.set k { m with tools := m.tools.set i (completeTool r t) } := by
        rw [hupd]

/-- Witness for C1: after tool_start A, tool_start B, tool_start A, a
tool_result for A completes the second A-named call (index 2) and the
first A-named call (index 0) stays running. -/
theorem tool_result_updates_last_running_witness :
    applyEvent
      [{ role := "assistant", content := "", id := some 1,
         tools := [{ name := JVal.str "A", args := JVal.null,
                     status := ToolStatus.running, result := none },
                   { name := JVal.str "B", args := JVal.null,
                     status := ToolStatus.running, result := none },
                   { name := JVal.str "A", args := JVal.null,
                     status := ToolStatus.running, result := none }] }]
      1 (Event.tool_result (JVal.str "A") (JVal.str "out")) =
      [{ role := "assistant", content := "", id := some 1,
         tools := [{ name := JVal.str "A", args := JVal.null,
                     status := ToolStatus.running, result := none },
                   { name := JVal.str "B", args := JVal.null,
                     status := ToolStatus.running, result := none },
                   { name := JVal.str "A", args := JVal.null,
                     status := ToolStatus.completed,
                     result := some (JVal.str "out") }] }] := by
  have h := tool_result_updates_last_running
    [{ role := "assistant", content := "", id := some 1,
       tools := [{ name := JVal.str "A", args := JVal.null,
                   status := ToolStatus.running, result := none },
                 { name := JVal.str "B", args := JVal.null,
                   status := ToolStatus.running, result := none },
                 { name := JVal.str "A", args := JVal.null,
                   status := ToolStatus.running, result := none }] }]
    1 0
    { role := "assistant", content := "", id := some 1,
      tools := [{ name := JVal.str "A", args := JVal.null,
                  status := ToolStatus.running, result := none },
                { name := JVal.str "B", args := JVal.null,
                  status := ToolStatus.running, result := none },
                { name := JVal.str "A", args := JVal.null,
                  status := ToolStatus.running, result := none }] }
    2
    { name := JVal.str "A", args := JVal.null,
      status := ToolStatus.running, result := none }
    (JVal.str "A") (JVal.str "out")
    (by decide) (by decide)
    (fun j hj m2 hm2 => absurd hj (Nat.not_lt_zero j))
    (by decide) (by decide)
    (fun j hj t2 ht2 => by
      have hlen : (3 : Nat) ≤ j := hj
      rw [List.getElem?_eq_none (by simpa using hlen)] at ht2
      cases ht2)
  exact h.trans (by decide)

/-- Per-message single-step shape of a tool record under one event:
name and args are kept, and the record is either untouched or taken
from running to completed with the event result. -/
theorem updateMsg_tool_shape (ev : Event) (m : Message) (i : Nat) (t : ToolCall)
    (h : m.tools[i]? = some t) :
    ∃ t2, (updateMsg ev m).tools[i]? = some t2 ∧ t2.name = t.name ∧ t2.args = t.args
      ∧ (t2 = t ∨ (t.status = ToolStatus.running ∧ t2.status = ToolStatus.completed
          ∧ ∃ r, t2.result = some r)) := by
  cases ev with
  | content c => exact ⟨t, h, rfl, rfl, Or.inl rfl⟩
  | other => exact ⟨t, h, rfl, rfl, Or.inl rfl⟩
  | tool_start n a =>
    refine ⟨t, ?_, rfl, rfl, Or.inl rfl⟩
    have hlt : i < m.tools.length := (List.getElem?_eq_some.mp h).1
    simpa [updateMsg] using (List.getElem?_append_left hlt).trans h
  | tool_result n r =>
    cases hf : findLastIndex (isRunningNamed n) m.tools with
    | none => exact ⟨t, by simpa [updateMsg, hf] using h, rfl, rfl, Or.inl rfl⟩
    | some idx =>
      by_cases hix : idx = i
      · subst hix
        obtain ⟨a, ha, hpa⟩ := findLastIndex_some_mem _ _ idx hf
        rw [h] at ha
        cases ha
        have hrun : t.status = ToolStatus.running := by
          have := (Bool.and_eq_true _ _).mp hpa
          simpa [isRunningNamed] using this.2
        refine ⟨completeTool r t, ?_, rfl, rfl,
          Or.inr ⟨hrun, rfl, r, rfl⟩⟩
        simpa [updateMsg, hf] using modifyAt_getElem_self (completeTool r) idx m.tools t h
      · refine ⟨t, ?_, rfl, rfl, Or.inl rfl⟩
        simpa [updateMsg, hf] using
          (modifyAt_getElem_ne (completeTool r) idx i m.tools (fun hji => hix hji.symm)).trans h

/-- Single-step version of the tool lookup frame: any tool present
before one reducer application is still present at the same indices
afterwards, with the single-step shape. -/
theorem applyEvent_tool_shape (msgs : List Message) (aid : Nat) (ev : Event)
    (k i : Nat) (t : ToolCall) (h : toolAt msgs k i = some t) :
    ∃ t2, toolAt (applyEvent msgs aid ev) k i = some t2 ∧ t2.name = t.name
      ∧ t2.args = t.args
      ∧ (t2 = t ∨ (t.status = ToolStatus.running ∧ t2.status = ToolStatus.completed
          ∧ ∃ r, t2.result = some r)) := by
  obtain ⟨m, hm, hti⟩ : ∃ m, msgs[k]? = some m ∧ m.tools[i]? = some t := by
    unfold toolAt at h
    cases hk : msgs[k]? with
    | none => rw [hk] at h; cases h
    | some m => rw [hk] at h; exact ⟨m, rfl, h⟩
  unfold applyEvent
  cases hf : findIndex (hasId aid) msgs with
  | none => exact ⟨t, by simpa [toolAt, hm] using hti, rfl, rfl, Or.inl rfl⟩
  | some kk =>
    by_cases hkk : kk = k
    · subst hkk
      obtain ⟨t2, h2, hn, ha, hs⟩ := updateMsg_tool_shape ev m i t hti
      refine ⟨t2, ?_, hn, ha, hs⟩
      have : (modifyAt (updateMsg ev) kk msgs)[kk]? = some (updateMsg ev m) :=
        modifyAt_getElem_self _ kk msgs m hm
      simp [toolAt, this, h2]
    · refine ⟨t, ?_, rfl, rfl, Or.inl rfl⟩
      have : (modifyAt (updateMsg ev) kk msgs)[k]? = msgs[k]? :=
        modifyAt_getElem_ne _ kk k msgs (fun hk2 => hkk hk2.symm)
      simp [toolAt, this, hm, hti]

/-- Single-step preservation of the running-implies-no-result
invariant. -/
theorem applyEvent_inv (msgs : List Message) (aid : Nat) (ev : Event)
    (h : ∀ m ∈ msgs, ∀ t ∈ m.tools, t.status = ToolStatus.running → t.result = none) :
    ∀ m ∈ applyEvent msgs aid ev, ∀ t ∈ m.tools,
      t.status = ToolStatus.running → t.result = none := by
  unfold applyEvent
  cases hf : findIndex (hasId aid) msgs with
  | none => exact h
  | some k =>
    intro m2 hm2 t ht hrun
    rcases modifyAt_mem (updateMsg ev) k msgs m2 hm2 with hmem | ⟨m, hmk, rfl⟩
    · exact h m2 hmem t ht hrun
    · have hm : m ∈ msgs := List.getElem?_mem hmk
      cases ev with
      | content c => exact h m hm t ht hrun
      | other => exact h m hm t ht hrun
      | tool_start n a =>
        simp only [updateMsg, List.mem_append, List.mem_singleton] at ht
        rcases ht with ht | rfl
        · exact h m hm t ht hrun
        · rfl
      | tool_result n r =>
        simp only [updateMsg] at ht
        cases hfi : findLastIndex (isRunningNamed n) m.tools with
        | none => rw [hfi] at ht; exact h m hm t ht hrun
        | some idx =>
          rw [hfi] at ht
          rcases modifyAt_mem (completeTool r) idx m.tools t ht with hmem2 | ⟨a, _, rfl⟩
          · exact h m hm t hmem2 hrun
          · cases hrun

/-- C8: over any event sequence, a tool record keeps its name and
args, its status only ever moves from running to completed (a
completed record is never changed again, a still-running record was
never touched), its result is absent while running and is set exactly
at the running-to-completed transition. -/
theorem toolcall_lifecycle (evs : List Event) (msgs : List Message) (aid : Nat)
    (h : ∀ m ∈ msgs, ∀ t ∈ m.tools, t.status = ToolStatus.running → t.result = none) :
    (∀ m ∈ applyEvents msgs aid evs, ∀ t ∈ m.tools,
        t.status = ToolStatus.running → t.result = none)
    ∧ ∀ k i t, toolAt msgs k i = some t →
        ∃ t2, toolAt (applyEvents msgs aid evs) k i = some t2
          ∧ t2.name = t.name ∧ t2.args = t.args
          ∧ (t.status = ToolStatus.completed → t2 = t)
          ∧ (t2.status = ToolStatus.running → t2 = t)
          ∧ (t.status = ToolStatus.running → t2.status = ToolStatus.completed →
              ∃ r, t2.result = some r) := by
  induction evs generalizing msgs with
  | nil =>
    refine ⟨h, fun k i t ht => ⟨t, ht, rfl, rfl, fun _ => rfl, fun _ => rfl, ?_⟩⟩
    intro h1 h2
    rw [h1] at h2
    cases h2
  | cons ev evs ih =>
    have hstep : applyEvents msgs aid (ev :: evs) =
        applyEvents (applyEvent msgs aid ev) aid evs := rfl
    have hinv1 := applyEvent_inv msgs aid ev h
    obtain ⟨hinv, hrest⟩ := ih (applyEvent msgs aid ev) hinv1
    rw [hstep]
    refine ⟨hinv, fun k i t ht => ?_⟩
    obtain ⟨t1, ht1, hn1, ha1, hs1⟩ := applyEvent_tool_shape msgs aid ev k i t ht
    obtain ⟨t2, ht2, hn2, ha2, hc2, hr2, htr2⟩ := hrest k i t1 ht1
    refine ⟨t2, ht2, hn2.trans hn1, ha2.trans ha1, ?_, ?_, ?_⟩
    · intro hcomp
      rcases hs1 with heq | ⟨hrun, _, _⟩
      · have h1 : t1.status = ToolStatus.completed := by rw [heq]; exact hcomp
        exact (hc2 h1).trans heq
      · exact absurd (hcomp.symm.trans hrun) (by decide)
    · intro hrun2
      have ht12 : t2 = t1 := hr2 hrun2
      rcases hs1 with heq | ⟨_, hcomp1, _⟩
      · exact ht12.trans heq
      · rw [ht12] at hrun2
        exact absurd (hcomp1.symm.trans hrun2) (by decide)
    · intro hrun hcomp2
      rcases hs1 with heq | ⟨_, hcomp1, r, hres1⟩
      · have h1 : t1.status = ToolStatus.running := by rw [heq]; exact hrun
        exact htr2 h1 hcomp2
      · refine ⟨r, ?_⟩
        rw [hc2 hcomp1]
        exact hres1

/-- Witness for C8: one completing sequence on a one-tool transcript
keeps the tool addressable at its position. -/
theorem toolcall_lifecycle_witness :
    (toolAt (applyEvents
      [{ role := "assistant", content := "", id := some 1,
         tools := [{ name := JVal.str "A", args := JVal.null,
                     status := ToolStatus.running, result := none }] }]
      1 [Event.tool_result (JVal.str "A") (JVal.str "ok")]) 0 0).isSome = true := by
  obtain ⟨t2, ht2, -⟩ := (toolcall_lifecycle
    [Event.tool_result (JVal.str "A") (JVal.str "ok")]
    [{ role := "assistant", content := "", id := some 1,
       tools := [{ name := JVal.str "A", args := JVal.null,
                   status := ToolStatus.running, result := none }] }]
    1 (by
      intro m hm t ht hrun
      simp only [List.mem_singleton] at hm
      subst hm
      simp only [List.mem_singleton] at ht
      subst ht
      rfl)).2 0 0
    { name := JVal.str "A", args := JVal.null,
      status := ToolStatus.running, result := none } (by decide)
  rw [ht2]
  rfl

/-- C6: a send with blank input or while already sending is rejected
as a no-op: no user message, no placeholder, no opened stream, no
recorded failure; and a send that starts idle always ends idle. -/
theorem send_rejects_busy_or_blank (st : ChatState) (input : String) (aid : Nat)
    (outcome : FetchOutcome) :
    (((trimChars input.data).isEmpty || st.loading) = true →
      sendModel st input aid outcome = { final := st, request := none, fails := 0 })
    ∧ (st.loading = false → (sendModel st input aid outcome).final.loading = false) := by
  constructor
  · intro h
    simp [sendModel, h]
  · intro h
    by_cases hg : ((trimChars input.data).isEmpty || st.loading) = true
    · have ha : (trimChars input.data).isEmpty = true := by
        cases he : (trimChars input.data).isEmpty with
        | true => rfl
        | false => rw [he, h] at hg; exact absurd hg (by simp)
      simp [sendModel, ha, h]
    · have hg2 : ((trimChars input.data).isEmpty || st.loading) = false := by
        simpa using hg
      cases outcome with
      | fail e => simp [sendModel, hg2]
      | ok f chunks => simp [sendModel, hg2]

/-- Witness for C6: a send attempted while loading returns the state
untouched and opens no stream, and an idle whitespace-only send ends
idle. -/
theorem send_rejects_busy_or_blank_witness :
    sendModel { messages := [userMsg "old"], loading := true } "hi" 7
        (FetchOutcome.ok true ["x\n"]) =
      { final := { messages := [userMsg "old"], loading := true },
        request := none, fails := 0 }
    ∧ (sendModel { messages := [], loading := false } "  " 7
        (FetchOutcome.ok true ["x\n"])).final.loading = false :=
  ⟨(send_rejects_busy_or_blank { messages := [userMsg "old"], loading := true }
      "hi" 7 (FetchOutcome.ok true ["x\n"])).1 (by decide),
   (send_rejects_busy_or_blank { messages := [], loading := false }
      "  " 7 (FetchOutcome.ok true ["x\n"])).2 rfl⟩

/-- C5: an accepted send opens the stream with body
JSON.stringify of the messages key holding the prior transcript plus
the fresh user turn, filtered to the conversational roles and coerced
to role and content only (the placeholder is not part of the payload,
and no tool metadata is representable in a wire message). -/
theorem send_payload (st : ChatState) (input : String) (aid : Nat)
    (outcome : FetchOutcome)
    (h : ((trimChars input.data).isEmpty || st.loading) = false) :
    (sendModel st input aid outcome).request =
      some (renderBody (sanitize (st.messages ++ [userMsg input])))
    ∧ ∀ w ∈ sanitize (st.messages ++ [userMsg input]),
        w.role = "user" ∨ w.role = "assistant" ∨ w.role = "system" := by
  constructor
  · cases outcome with
    | fail e => simp [sendModel, h]
    | ok f chunks => simp [sendModel, h]
  · intro w hw
    unfold sanitize at hw
    obtain ⟨m, hm, rfl⟩ := List.mem_map.mp hw
    have hrole := (List.mem_filter.mp hm).2
    simpa [allowedRoles] using hrole

/-- Witness for C5: the first send of hi on an empty transcript posts
exactly the specified body. -/
theorem send_payload_witness :
    (sendModel { messages := [], loading := false } "hi" 1
        (FetchOutcome.ok true [])).request =
      some "\x7b\"messages\":[\x7b\"role\":\"user\",\"content\":\"hi\"\x7d]\x7d" :=
  ((send_payload { messages := [], loading := false } "hi" 1
      (FetchOutcome.ok true []) (by decide)).1).trans (by decide)

/-- Counterexample to C7 as stated: a non-success response is not
detected by the code (response.ok is never read); its body is pumped
as if it were the event stream, so no synthetic Error message is
appended — the transcript ends with just the user turn and the empty
placeholder. -/
theorem send_non_success_no_error_message :
    (sendModel { messages := [], loading := false } "hi" 1
        (FetchOutcome.ok false ["oops"])).final.messages =
      [userMsg "hi", placeholderMsg 1] := by decide

/-- C7 (amended): when the stream open fails (the fetch promise
rejects), send appends a synthetic assistant message reading
Error: followed by the message, separate from the placeholder, and
ends idle; and every send that passes the guard ends idle whatever the
response, so no failure path leaves the state as sending. -/
theorem send_open_failure_appends_error (st : ChatState) (input : String)
    (aid : Nat) (emsg : String)
    (h : ((trimChars input.data).isEmpty || st.loading) = false) :
    sendModel st input aid (FetchOutcome.fail emsg) =
      { final :=
          { messages :=
              ((st.messages ++ [userMsg input]) ++ [placeholderMsg aid]) ++ [errorMsg emsg],
            loading := false },
        request := some (renderBody (sanitize (st.messages ++ [userMsg input]))),
        fails := 0 }
    ∧ ∀ okFlag chunks,
        (sendModel st input aid (FetchOutcome.ok okFlag chunks)).final.loading = false := by
  constructor
  · simp [sendModel, h]
  · intro okFlag chunks
    simp [sendModel, h]

/-- Witness for C7 (amended): a concrete network failure appends the
Error message after the placeholder and returns to idle. -/
theorem send_open_failure_appends_error_witness :
    sendModel { messages := [], loading := false } "hi" 2
        (FetchOutcome.fail "network") =
      { final :=
          { messages := [userMsg "hi", placeholderMsg 2, errorMsg "network"],
            loading := false },
        request := some "\x7b\"messages\":[\x7b\"role\":\"user\",\"content\":\"hi\"\x7d]\x7d",
        fails := 0 } :=
  ((send_open_failure_appends_error { messages := [], loading := false } "hi" 2
      "network" (by decide)).1).trans (by decide)

/-- C4: a line that fails decoding only increments the logged failure
count, leaving the transcript untouched and the pump running; on the
specified three-line stream with a garbage middle line the final
assistant content is ab with exactly one recorded failure. -/
theorem parse_failure_isolation :
    (∀ (aid : Nat) (st : PumpState) (line : List Char),
        parseLine line = none → (trimChars line).isEmpty = false →
        processLine aid st line = { st with fails := st.fails + 1 })
    ∧ (sendModel { messages := [], loading := false } "hi" 1
        (FetchOutcome.ok true
          ["\x7b\"type\":\"content\",\"content\":\"a\"\x7d\n<<<garbage>>>\n\x7b\"type\":\"content\",\"content\":\"b\"\x7d\n"])).final.messages =
        [userMsg "hi", { role := "assistant", content := "ab", id := some 1, tools := [] }]
    ∧ (sendModel { messages := [], loading := false } "hi" 1
        (FetchOutcome.ok true
          ["\x7b\"type\":\"content\",\"content\":\"a\"\x7d\n<<<garbage>>>\n\x7b\"type\":\"content\",\"content\":\"b\"\x7d\n"])).fails = 1 := by
  refine ⟨?_, by decide, by decide⟩
  intro aid st line hparse htrim
  simp [processLine, htrim, hparse]

/-- Witness for C4: a concrete undecodable line only bumps the failure
counter. -/
theorem parse_failure_isolation_witness :
    processLine 0 { buffer := [], msgs := [], fails := 0 } ("<<<garbage>>>".data) =
      { buffer := [], msgs := [], fails := 1 } :=
  parse_failure_isolation.1 0 { buffer := [], msgs := [], fails := 0 }
    ("<<<garbage>>>".data) (by decide) (by decide)

theorem utf8EncodeChar_shape (c : Nat) (h : ValidCP c) :
    ∃ b bs, utf8EncodeChar c = b :: bs ∧ utf8SeqLen b = bs.length + 1 := by
  unfold ValidCP at h
  unfold utf8EncodeChar
  split_ifs with h1 h2 h3
  · refine ⟨c, [], rfl, ?_⟩
    show utf8SeqLen c = 1
    unfold utf8SeqLen; split_ifs <;> omega
  · refine ⟨192 + c / 64, [128 + c % 64], rfl, ?_⟩
    show utf8SeqLen (192 + c / 64) = 2
    unfold utf8SeqLen; split_ifs <;> omega
  · refine ⟨224 + c / 4096, [128 + c / 64 % 64, 128 + c % 64], rfl, ?_⟩
    show utf8SeqLen (224 + c / 4096) = 3
    unfold utf8SeqLen; split_ifs <;> omega
  · refine ⟨240 + c / 262144,
      [128 + c / 4096 % 64, 128 + c / 64 % 64, 128 + c % 64], rfl, ?_⟩
    show utf8SeqLen (240 + c / 262144) = 4
    unfold utf8SeqLen; split_ifs <;> omega

theorem utf8DecodeStep_length (b : Nat) (rest : List Nat) :
    (utf8DecodeStep b rest).2.length ≤ rest.length := by
  rcases rest with _ | ⟨b2, _ | ⟨b3, _ | ⟨b4, r⟩⟩⟩ <;>
    unfold utf8DecodeStep <;> split_ifs <;> (try simp) <;> omega

theorem utf8DecodeFuel_irrel (fuel1 : Nat) :
    ∀ (fuel2 : Nat) (bs : List Nat), bs.length ≤ fuel1 → bs.length ≤ fuel2 →
    utf8DecodeFuel fuel1 bs = utf8DecodeFuel fuel2 bs := by
  induction fuel1 with
  | zero =>
    intro fuel2 bs h1 h2
    have : bs = [] := List.length_eq_zero.mp (Nat.le_zero.mp h1)
    subst this
    cases fuel2 <;> rfl
  | succ f ih =>
    intro fuel2 bs h1 h2
    cases bs with
    | nil => cases fuel2 <;> rfl
    | cons b rest =>
      cases fuel2 with
      | zero => simp at h2
      | succ g =>
        simp only [utf8DecodeFuel]
        congr 1
        have hle : (utf8DecodeStep b rest).2.length ≤ rest.length :=
          utf8DecodeStep_length b rest
        exact ih g (utf8DecodeStep b rest).2
          (by simp at h1; omega) (by simp at h2; omega)

theorem utf8Decode_cons_one (b : Nat) (h : b < 128) (l : List Nat) :
    utf8Decode (b :: l) = b :: utf8Decode l := by
  show utf8DecodeFuel (b :: l).length (b :: l) = b :: utf8Decode l
  simp only [List.length_cons, utf8DecodeFuel]
  have hstep : utf8DecodeStep b l = (b, l) := by
    unfold utf8DecodeStep
    simp [h]
  rw [hstep]
  rfl

theorem utf8Decode_cons_two (b b2 : Nat) (h1 : ¬ b < 128) (h2 : b < 224)
    (l : List Nat) :
    utf8Decode (b :: b2 :: l) = ((b - 192) * 64 + (b2 - 128)) :: utf8Decode l := by
  show utf8DecodeFuel (b :: b2 :: l).length (b :: b2 :: l)
      = ((b - 192) * 64 + (b2 - 128)) :: utf8Decode l
  simp only [List.length_cons, utf8DecodeFuel]
  have hstep : utf8DecodeStep b (b2 :: l) = ((b - 192) * 64 + (b2 - 128), l) := by
    unfold utf8DecodeStep
    simp [h1, h2]
  rw [hstep]
  exact congrArg _ (utf8DecodeFuel_irrel (l.length + 1) l.length l (by omega) (by omega))

theorem utf8Decode_cons_three (b b2 b3 : Nat) (h1 : ¬ b < 128) (h2 : ¬ b < 224)
    (h3 : b < 240) (l : List Nat) :
    utf8Decode (b :: b2 :: b3 :: l) =
      ((b - 224) * 4096 + (b2 - 128) * 64 + (b3 - 128)) :: utf8Decode l := by
  show utf8DecodeFuel (b :: b2 :: b3 :: l).length (b :: b2 :: b3 :: l)
      = ((b - 224) * 4096 + (b2 - 128) * 64 + (b3 - 128)) :: utf8Decode l
  simp only [List.length_cons, utf8DecodeFuel]
  have hstep : utf8DecodeStep b (b2 :: b3 :: l)
      = ((b - 224) * 4096 + (b2 - 128) * 64 + (b3 - 128), l) := by
    unfold utf8DecodeStep
    simp [h1, h2, h3]
  rw [hstep]
  exact congrArg _ (utf8DecodeFuel_irrel (l.length + 2) l.length l (by omega) (by omega))

theorem utf8Decode_cons_four (b b2 b3 b4 : Nat) (h1 : ¬ b < 128) (h2 : ¬ b < 224)
    (h3 : ¬ b < 240) (l : List Nat) :
    utf8Decode (b :: b2 :: b3 :: b4 :: l) =
      ((b - 240) * 262144 + (b2 - 128) * 4096 + (b3 - 128) * 64 + (b4 - 128))
        :: utf8Decode l := by
  show utf8DecodeFuel (b :: b2 :: b3 :: b4 :: l).length (b :: b2 :: b3 :: b4 :: l)
      = ((b - 240) * 262144 + (b2 - 128) * 4096 + (b3 - 128) * 64 + (b4 - 128))
        :: utf8Decode l
  simp only [List.length_cons, utf8DecodeFuel]
  have hstep : utf8DecodeStep b (b2 :: b3 :: b4 :: l)
      = ((b - 240) * 262144 + (b2 - 128) * 4096 + (b3 - 128) * 64 + (b4 - 128), l) := by
    unfold utf8DecodeStep
    simp [h1, h2, h3]
  rw [hstep]
  exact congrArg _ (utf8DecodeFuel_irrel (l.length + 3) l.length l (by omega) (by omega))

theorem utf8Decode_encodeChar (c : Nat) (h : ValidCP c) (rest : List Nat) :
    utf8Decode (utf8EncodeChar c ++ rest) = c :: utf8Decode rest := by
  unfold ValidCP at h
  unfold utf8EncodeChar
  split_ifs with h1 h2 h3
  · show utf8Decode (c :: rest) = c :: utf8Decode rest
    exact utf8Decode_cons_one c h1 rest
  · show utf8Decode ((192 + c / 64) :: (128 + c % 64) :: rest) = c :: utf8Decode rest
    rw [utf8Decode_cons_two (192 + c / 64) (128 + c % 64) (by omega) (by omega) rest]
    have hc : (192 + c / 64 - 192) * 64 + (128 + c % 64 - 128) = c := by omega
    rw [hc]
  · show utf8Decode ((224 + c / 4096) :: (128 + c / 64 % 64) :: (128 + c % 64) :: rest)
        = c :: utf8Decode rest
    rw [utf8Decode_cons_three (224 + c / 4096) (128 + c / 64 % 64) (128 + c % 64)
      (by omega) (by omega) (by omega) rest]
    have hc : (224 + c / 4096 - 224) * 4096 + (128 + c / 64 % 64 - 128) * 64
        + (128 + c % 64 - 128) = c := by omega
    rw [hc]
  · show utf8Decode ((240 + c / 262144) :: (128 + c / 4096 % 64) :: (128 + c / 64 % 64)
        :: (128 + c % 64) :: rest) = c :: utf8Decode rest
    rw [utf8Decode_cons_four (240 + c / 262144) (128 + c / 4096 % 64)
      (128 + c / 64 % 64) (128 + c % 64) (by omega) (by omega) (by omega) rest]
    have hc : (240 + c / 262144 - 240) * 262144 + (128 + c / 4096 % 64 - 128) * 4096
        + (128 + c / 64 % 64 - 128) * 64 + (128 + c % 64 - 128) = c := by omega
    rw [hc]

theorem utf8Encode_cons (c : Nat) (cs : List Nat) :
    utf8Encode (c :: cs) = utf8EncodeChar c ++ utf8Encode cs := by
  simp [utf8Encode]

theorem utf8Decode_encode (ts : List Nat) (h : ∀ c ∈ ts, ValidCP c) :
    utf8Decode (utf8Encode ts) = ts := by
  induction ts with
  | nil => rfl
  | cons c cs ih =>
    rw [utf8Encode_cons, utf8Decode_encodeChar c (h c (by simp)),
      ih (fun x hx => h x (by simp [hx]))]

theorem utf8Encode_eq_nil (ts : List Nat) (h : ∀ c ∈ ts, ValidCP c)
    (he : utf8Encode ts = []) : ts = [] := by
  cases ts with
  | nil => rfl
  | cons c cs =>
    obtain ⟨b, bs, hb, -⟩ := utf8EncodeChar_shape c (h c (by simp))
    rw [utf8Encode_cons, hb] at he
    cases he

theorem utf8CompleteFuel_nil (fuel : Nat) : utf8CompleteFuel fuel [] = ([], []) := by
  cases fuel <;> rfl

/-- Any prefix of a validly encoded text splits as the encoding of a
text prefix plus an incomplete remainder of the next character, and
the incremental decoder's buffering returns exactly that split. -/
theorem utf8Complete_spec (todo : List Nat) :
    (∀ c ∈ todo, ValidCP c) →
    ∀ (xs ys : List Nat) (fuel : Nat), xs.length ≤ fuel →
    xs ++ ys = utf8Encode todo →
    ∃ t1 t2 r, todo = t1 ++ t2 ∧ xs = utf8Encode t1 ++ r ∧ r ++ ys = utf8Encode t2 ∧
      utf8CompleteFuel fuel xs = (utf8Encode t1, r) ∧
      (r = [] ∨ ∃ d ds, t2 = d :: ds ∧ r.length < (utf8EncodeChar d).length) := by
  induction todo with
  | nil =>
    intro hv xs ys fuel hfuel happ
    have hnil : xs ++ ys = [] := by simpa [utf8Encode] using happ
    have hxs : xs = [] := (List.append_eq_nil.mp hnil).1
    have hys : ys = [] := (List.append_eq_nil.mp hnil).2
    subst hxs
    subst hys
    exact ⟨[], [], [], rfl, rfl, rfl, utf8CompleteFuel_nil fuel, Or.inl rfl⟩
  | cons c cs ih =>
    intro hv xs ys fuel hfuel happ
    have hvc : ValidCP c := hv c (by simp)
    have hvcs : ∀ x ∈ cs, ValidCP x := fun x hx => hv x (by simp [hx])
    obtain ⟨b0, bs0, hshape, hslen⟩ := utf8EncodeChar_shape c hvc
    have hlenc : (utf8EncodeChar c).length = bs0.length + 1 := by
      rw [hshape]; rfl
    rw [utf8Encode_cons] at happ
    by_cases hxlen : xs.length < (utf8EncodeChar c).length
    · refine ⟨[], c :: cs, xs, rfl, by simp [utf8Encode], ?_, ?_,
        Or.inr ⟨c, cs, rfl, hxlen⟩⟩
      · rw [utf8Encode_cons]; exact happ
      · show utf8CompleteFuel fuel xs = (utf8Encode [], xs)
        have henc0 : utf8Encode ([] : List Nat) = [] := rfl
        rw [henc0]
        cases hxse : xs with
        | nil => exact utf8CompleteFuel_nil fuel
        | cons x xr =>
          have hx : x = b0 := by
            rw [hxse, hshape] at happ
            simpa using congrArg (fun l => l.headI) happ
          cases fuel with
          | zero =>
            rw [hxse] at hfuel
            simp at hfuel
          | succ f =>
            have hcnd : xr.length + 1 < utf8SeqLen x := by
              rw [hxse] at hxlen
              rw [hx, hslen]
              simp at hxlen
              omega
            simp only [utf8CompleteFuel]
            rw [if_pos hcnd]
    · push_neg at hxlen
      have htake : xs.take (utf8EncodeChar c).length = utf8EncodeChar c := by
        rw [← List.take_append_of_le_length hxlen, happ, List.take_left]
      have hdrop : xs.drop (utf8EncodeChar c).length ++ ys = utf8Encode cs := by
        rw [← List.drop_append_of_le_length hxlen, happ, List.drop_left]
      have hxseq : xs = (b0 :: bs0) ++ xs.drop (utf8EncodeChar c).length := by
        conv_lhs => rw [← List.take_append_drop (utf8EncodeChar c).length xs]
        rw [htake, hshape]
      cases fuel with
      | zero =>
        have : xs.length = 0 := Nat.le_zero.mp hfuel
        omega
      | succ f =>
        have hxlen2 : xs.length = bs0.length + 1 + (xs.drop (utf8EncodeChar c).length).length := by
          conv_lhs => rw [hxseq]
          simp
          omega
        obtain ⟨t1, t2, r, ht12, hxs1, hr, hcomp, hclause⟩ :=
          ih hvcs (xs.drop (utf8EncodeChar c).length) ys f (by omega) hdrop
        refine ⟨c :: t1, t2, r, by simp [ht12], ?_, hr, ?_, hclause⟩
        · calc xs = (b0 :: bs0) ++ xs.drop (utf8EncodeChar c).length := hxseq
            _ = utf8EncodeChar c ++ (utf8Encode t1 ++ r) := by rw [← hshape, hxs1]
            _ = utf8Encode (c :: t1) ++ r := by
                rw [utf8Encode_cons, List.append_assoc]
        · conv_lhs => rw [hxseq]
          show utf8CompleteFuel (f + 1)
              (b0 :: (bs0 ++ xs.drop (utf8EncodeChar c).length)) = _
          have hcnd : ¬ ((bs0 ++ xs.drop (utf8EncodeChar c).length).length + 1
              < utf8SeqLen b0) := by
            rw [hslen]
            simp
          have htk : (bs0 ++ xs.drop (utf8EncodeChar c).length).take (utf8SeqLen b0 - 1)
              = bs0 := by
            rw [hslen]
            simp [List.take_left]
          have hdr : (bs0 ++ xs.drop (utf8EncodeChar c).length).drop (utf8SeqLen b0 - 1)
              = xs.drop (utf8EncodeChar c).length := by
            rw [hslen]
            simp [List.drop_left]
          simp only [utf8CompleteFuel]
          rw [if_neg hcnd, htk, hdr, hcomp]
          rw [utf8Encode_cons, hshape]
          simp

theorem consInto_ne_nil (x : List α) (l : List (List α)) : consInto x l ≠ [] := by
  cases l <;> simp [consInto]

theorem splitSep_cons_sep [DecidableEq α] (sep : α) (rest : List α) :
    splitSep sep (sep :: rest) = [] :: splitSep sep rest := by
  simp [splitSep]

theorem splitSep_cons_ne [DecidableEq α] (sep c : α) (rest : List α) (h : ¬ c = sep) :
    splitSep sep (c :: rest) = consInto [c] (splitSep sep rest) := by
  simp [splitSep, h]

theorem splitSep_ne_nil [DecidableEq α] (sep : α) (l : List α) :
    splitSep sep l ≠ [] := by
  induction l with
  | nil => simp [splitSep]
  | cons c rest ih =>
    by_cases h : c = sep
    · subst h
      rw [splitSep_cons_sep]
      simp
    · rw [splitSep_cons_ne sep c rest h]
      exact consInto_ne_nil [c] (splitSep sep rest)

theorem splitSep_not_mem [DecidableEq α] (sep : α) (l : List α) :
    ∀ f ∈ splitSep sep l, sep ∉ f := by
  induction l with
  | nil =>
    intro f hf
    simp [splitSep] at hf
    subst hf
    simp
  | cons c rest ih =>
    intro f hf
    by_cases h : c = sep
    · subst h
      rw [splitSep_cons_sep] at hf
      rcases List.mem_cons.mp hf with rfl | hf
      · simp
      · exact ih f hf
    · rw [splitSep_cons_ne sep c rest h] at hf
      cases hsp : splitSep sep rest with
      | nil => exact absurd hsp (splitSep_ne_nil sep rest)
      | cons g gs =>
        rw [hsp] at hf
        simp only [consInto, List.mem_cons] at hf
        rcases hf with rfl | hf
        · intro hmem
          simp only [List.cons_append, List.nil_append, List.mem_cons] at hmem
          rcases hmem with rfl | hmem
          · exact h rfl
          · exact ih g (by rw [hsp]; simp) hmem
        · exact ih f (by rw [hsp]; simp [hf])

theorem popLast_cons (x : α) (l : List α) (d : α) (h : l ≠ []) :
    popLast (x :: l) d = popLast l d := by
  cases l with
  | nil => exact absurd rfl h
  | cons y ys => simp [popLast, List.getLast?_cons_cons]

theorem popLast_mem (l : List α) (d : α) (h : l ≠ []) : popLast l d ∈ l := by
  induction l with
  | nil => exact absurd rfl h
  | cons x xs ih =>
    cases hxs : xs with
    | nil =>
      subst hxs
      simp [popLast, List.getLast?]
    | cons y ys =>
      subst hxs
      rw [popLast_cons x (y :: ys) d (by simp)]
      exact List.mem_cons_of_mem x (ih (by simp))

theorem splitSep_append [DecidableEq α] (sep : α) (a b : List α) :
    splitSep sep (a ++ b) =
      (splitSep sep a).dropLast
        ++ consInto (popLast (splitSep sep a) []) (splitSep sep b) := by
  induction a with
  | nil =>
    cases hT : splitSep sep b with
    | nil => exact absurd hT (splitSep_ne_nil sep b)
    | cons t ts => simp [splitSep, consInto, popLast, List.getLast?, hT]
  | cons c a' ih =>
    by_cases h : c = sep
    · rw [List.cons_append, h, splitSep_cons_sep, ih, splitSep_cons_sep]
      have hne : splitSep sep a' ≠ [] := splitSep_ne_nil sep a'
      rw [List.dropLast_cons_of_ne_nil hne, popLast_cons [] (splitSep sep a') [] hne]
      simp
    · rw [List.cons_append, splitSep_cons_ne sep c (a' ++ b) h, ih,
        splitSep_cons_ne sep c a' h]
      cases hS : splitSep sep a' with
      | nil => exact absurd hS (splitSep_ne_nil sep a')
      | cons g gs =>
        cases gs with
        | nil =>
          cases hT : splitSep sep b with
          | nil => exact absurd hT (splitSep_ne_nil sep b)
          | cons t ts => simp [consInto, popLast, List.getLast?]
        | cons g2 gs2 =>
          have hne2 : (g2 :: gs2 : List (List α)) ≠ [] := by simp
          rw [popLast_cons g (g2 :: gs2) [] hne2]
          rw [List.dropLast_cons_of_ne_nil hne2]
          simp only [consInto, List.cons_append, List.nil_append]
          rw [List.dropLast_cons_of_ne_nil hne2,
            popLast_cons (c :: g) (g2 :: gs2) [] hne2]
          simp

theorem consInto_splitSep [DecidableEq α] (sep : α) (x b : List α) (h : sep ∉ x) :
    consInto x (splitSep sep b) = splitSep sep (x ++ b) := by
  induction x with
  | nil =>
    simp only [List.nil_append]
    cases hT : splitSep sep b with
    | nil => exact absurd hT (splitSep_ne_nil sep b)
    | cons t ts => simp [consInto]
  | cons c x' ih =>
    have hc : ¬ c = sep := by
      intro e
      exact h (by simp [e])
    rw [List.cons_append, splitSep_cons_ne sep c (x' ++ b) hc]
    rw [← ih (fun hm => h (by simp [hm]))]
    cases hT : splitSep sep b with
    | nil => exact absurd hT (splitSep_ne_nil sep b)
    | cons t ts => simp [consInto]

theorem splitSep_singleton [DecidableEq α] (sep : α) (x : List α) (h : sep ∉ x) :
    splitSep sep x = [x] := by
  have h2 := consInto_splitSep sep x [] h
  simp only [List.append_nil] at h2
  rw [← h2]
  simp [splitSep, consInto]

theorem utf8Complete_of_short (d : Nat) (hd : ValidCP d) (r zs tail : List Nat)
    (happ : r ++ zs = utf8EncodeChar d ++ tail)
    (hlen : r.length < (utf8EncodeChar d).length) :
    utf8Complete r = ([], r) := by
  obtain ⟨b0, bs0, hshape, hslen⟩ := utf8EncodeChar_shape d hd
  cases r with
  | nil => rfl
  | cons b rb =>
    have hb : b = b0 := by
      rw [hshape] at happ
      simpa using congrArg (fun l => l.headI) happ
    have hcnd : rb.length + 1 < utf8SeqLen b := by
      rw [hb, hslen]
      rw [hshape] at hlen
      simpa using hlen
    show utf8CompleteFuel (rb.length + 1) (b :: rb) = ([], b :: rb)
    simp only [utf8CompleteFuel]
    rw [if_pos hcnd]

/-- Invariant of the reader loop: however the remaining encoded text
is cut into chunks, folding the framer emits exactly the complete
lines of the buffered text followed by that remaining text. -/
theorem framer_fold (chunks : List (List Nat)) :
    ∀ (restTxt pending buffer : List Nat) (lines : List (List Nat)),
    (∀ c ∈ restTxt, ValidCP c) →
    pending ++ chunks.flatten = utf8Encode restTxt →
    (10 : Nat) ∉ buffer →
    utf8Complete pending = ([], pending) →
    (chunks.foldl framerStep
        { pending := pending, buffer := buffer, lines := lines }).lines
      = lines ++ (splitSep 10 (buffer ++ restTxt)).dropLast := by
  induction chunks with
  | nil =>
    intro restTxt pending buffer lines hv happ hbuf hpend
    simp only [List.foldl_nil]
    simp only [List.flatten_nil, List.append_nil] at happ
    obtain ⟨t1, t2, r, ht, hxs, hr, hcomp, hclause⟩ :=
      utf8Complete_spec restTxt hv pending [] pending.length le_rfl (by simp [happ])
    unfold utf8Complete at hpend
    rw [hpend] at hcomp
    have hfst : ([] : List Nat) = utf8Encode t1 := congrArg Prod.fst hcomp
    have hsnd : pending = r := congrArg Prod.snd hcomp
    have hv2 : ∀ c ∈ t2, ValidCP c := fun c hc => hv c (by rw [ht]; simp [hc])
    have hrenc : r = utf8Encode t2 := by simpa using hr
    rcases hclause with hrnil | ⟨d, ds, ht2, hrlen⟩
    · have hpnil : pending = [] := hsnd.trans hrnil
      have henc : utf8Encode restTxt = [] := by rw [← happ, hpnil]
      have hrt : restTxt = [] := utf8Encode_eq_nil restTxt hv henc
      subst hrt
      rw [splitSep_singleton 10 (buffer ++ []) (by simpa using hbuf)]
      simp
    · exfalso
      have h1 : r = utf8EncodeChar d ++ utf8Encode ds := by
        rw [hrenc, ht2, utf8Encode_cons]
      have h2 : (utf8EncodeChar d).length ≤ r.length := by
        rw [h1]
        simp
      omega
  | cons chunk chunks ih =>
    intro restTxt pending buffer lines hv happ hbuf hpend
    simp only [List.foldl_cons]
    have happ2 : (pending ++ chunk) ++ chunks.flatten = utf8Encode restTxt := by
      rw [List.append_assoc]
      simpa using happ
    obtain ⟨t1, t2, r, ht, hxs, hr, hcomp, hclause⟩ :=
      utf8Complete_spec restTxt hv (pending ++ chunk) chunks.flatten
        (pending ++ chunk).length le_rfl happ2
    have hv1 : ∀ c ∈ t1, ValidCP c := fun c hc => hv c (by rw [ht]; simp [hc])
    have hv2 : ∀ c ∈ t2, ValidCP c := fun c hc => hv c (by rw [ht]; simp [hc])
    have hcomp2 : utf8Complete (pending ++ chunk) = (utf8Encode t1, r) := hcomp
    have hstep : framerStep { pending := pending, buffer := buffer, lines := lines } chunk
        = { pending := r,
            buffer := popLast (splitSep 10 (buffer ++ t1)) [],
            lines := lines ++ (splitSep 10 (buffer ++ t1)).dropLast } := by
      unfold framerStep
      simp only [hcomp2]
      rw [utf8Decode_encode t1 hv1]
    rw [hstep]
    have hbuf2 : (10 : Nat) ∉ popLast (splitSep 10 (buffer ++ t1)) [] :=
      splitSep_not_mem 10 (buffer ++ t1) _
        (popLast_mem _ [] (splitSep_ne_nil 10 (buffer ++ t1)))
    have hpend2 : utf8Complete r = ([], r) := by
      rcases hclause with rfl | ⟨d, ds, ht2, hrlen⟩
      · rfl
      · have hd : ValidCP d := hv2 d (by rw [ht2]; simp)
        refine utf8Complete_of_short d hd r chunks.flatten (utf8Encode ds) ?_ hrlen
        rw [hr, ht2, utf8Encode_cons]
    rw [ih t2 r (popLast (splitSep 10 (buffer ++ t1)) [])
      (lines ++ (splitSep 10 (buffer ++ t1)).dropLast) hv2 hr hbuf2 hpend2]
    rw [ht]
    have hkey : splitSep 10 (buffer ++ (t1 ++ t2))
        = (splitSep 10 (buffer ++ t1)).dropLast
          ++ splitSep 10 (popLast (splitSep 10 (buffer ++ t1)) [] ++ t2) := by
      rw [← List.append_assoc, splitSep_append 10 (buffer ++ t1) t2,
        consInto_splitSep 10 _ t2 hbuf2]
    rw [hkey, List.dropLast_append_of_ne_nil _ (splitSep_ne_nil 10 _)]
    simp [List.append_assoc]

/-- C2: for any line-delimited text and any byte chunking of its
UTF-8 encoding (splits may fall mid-line or inside a multi-byte
character), the framer emits exactly the complete lines of the whole
text, the trailing unterminated fragment being discarded at stream
end. -/
theorem framer_chunking_invariant (text : List Nat) (chunks : List (List Nat))
    (hv : ∀ c ∈ text, ValidCP c) (hc : chunks.flatten = utf8Encode text) :
    framerRun chunks = completeLines text := by
  unfold framerRun completeLines
  rw [framer_fold chunks text [] [] [] hv (by simpa using hc) (by simp) rfl]
  simp

/-- Witness for C2: the text consisting of an e-acute, a newline and
the letter a, chunked so that the two bytes of the e-acute are split
across chunks and the final line is unterminated, frames to the single
line containing the e-acute. -/
theorem framer_chunking_invariant_witness :
    framerRun [[195], [169, 10], [97]] = [[233]] :=
  (framer_chunking_invariant [233, 10, 97] [[195], [169, 10], [97]]
    (by decide) (by decide)).trans (by decide)

end AIChat
